import Mathlib

/-! # Moonbirds shuffler: seed folding and Fisher-Yates shuffle

A shallow embedding of `shuffler.go`.  The binary decodes a hex seed into a
32-byte hash, folds the hash with XOR into one 64-bit word, seeds a
`math/rand` generator with it and shuffles the 10,000 metadata records.

Go values are embedded as follows: a `byte` is a `Fin 256`, a `uint64` is a
`Nat` below `2 ^ 64`, an `int`/`int64` is an `Int`, a slice is a `List`, a
run-time panic or `log.Fatalf` is an `Except` error.  Library routines the
program calls (`binary.BigEndian.Uint64`, `common.HexToHash`,
`(*rand.Rand).Shuffle`) are embedded from their Go sources; the internals of
the pseudo-random source are a parameter (`Rand`).
-/

namespace Shuffler

/-! ## Data model -/

/-- A Go `byte`. -/
abbrev Byte := Fin 256

/-- Ways in which a run can stop early: run-time panics of the Go runtime and
the `log.Fatalf` exits of `main`. -/
inductive Err where
  /-- Slice expression `s[lo:hi]` out of range. -/
  | sliceBounds (lo hi len : Nat)
  /-- Index expression out of range. -/
  | indexOutOfRange (i : Int) (len : Nat)
  /-- The fuel of a modelled loop ran out before its guard became false. -/
  | outOfFuel
  /-- The panic `invalid argument to Shuffle`. -/
  | invalidShuffleArgument
  /-- The exit `json.Unmarshal([all metadata])`. -/
  | fatalUnmarshal
  /-- The exit `Unmarshalled %d metadata objects; expecting 10k`. -/
  | fatalSizeMismatch (n : Nat)
  /-- The exit `json.Marshal([shuffled metadata])`. -/
  | fatalMarshal
  /-- The exit `os.WriteFile([shuffled JSON])`. -/
  | fatalWriteFile
  deriving DecidableEq

/-- A go-ethereum `common.Hash`, the array type `[32]byte`. -/
structure Hash where
  /-- The 32 bytes, index 0 first. -/
  bytes : List Byte
  /-- The array length `HashLength`. -/
  size : bytes.length = 32
  deriving DecidableEq

/-- What a run makes observable: the `log.Printf` lines of `main` and
`seededRNG`, and (as a ghost event) every call of the swap callback. -/
inductive Event where
  /-- The line `Initial collection: %#x`. -/
  | initialCollection
  /-- The line `Seed hash: %#x` with the bytes printed. -/
  | seedHash (seedBytes : List Byte)
  /-- The line `XOR-folded bytes: %#x` with the folded word. -/
  | xorFolded (uSeed : Nat)
  /-- The line `RNG seed: %d` with the signed seed. -/
  | rngSeed (seed : Int)
  /-- A call `swap(i, j)` made by `Shuffle`. -/
  | swap (i j : Int)
  /-- The line `Shuffled collection: %#x`. -/
  | shuffledCollection
  deriving DecidableEq

/-! ## Seed folding (`seededRNG`) -/

/-- The Go slice expression `s[lo:hi]` on a slice whose capacity is its length:
a panic unless `lo ≤ hi ≤ len(s)`. -/
def sliceExpr (s : List Byte) (lo hi : Nat) : Except Err (List Byte) :=
  if lo ≤ hi ∧ hi ≤ s.length then .ok ((s.drop lo).take (hi - lo))
  else .error (.sliceBounds lo hi s.length)

/-- The Go index expression `b[i]` on a byte slice. -/
def indexExpr (b : List Byte) (i : Nat) : Except Err Byte :=
  match b[i]? with
  | some x => .ok x
  | none => .error (.indexOutOfRange i b.length)

/-- The Go shift `x << k` on `uint64`: bits shifted past bit 63 are lost. -/
def shl64 (x k : Nat) : Nat := (x <<< k) % 2 ^ 64

/-- The conversion `uint64(b)` of a byte. -/
def uint64OfByte (b : Byte) : Nat := b.val

/-- Go `binary.BigEndian.Uint64`: after the bounds check `_ = b[7]`, the value
`uint64(b[7]) | uint64(b[6])<<8 | ... | uint64(b[0])<<56`. -/
def bigEndianUint64 (b : List Byte) : Except Err Nat := do
  let _ ← indexExpr b 7
  let b7 ← indexExpr b 7
  let b6 ← indexExpr b 6
  let b5 ← indexExpr b 5
  let b4 ← indexExpr b 4
  let b3 ← indexExpr b 3
  let b2 ← indexExpr b 2
  let b1 ← indexExpr b 1
  let b0 ← indexExpr b 0
  return uint64OfByte b7 ||| shl64 (uint64OfByte b6) 8 ||| shl64 (uint64OfByte b5) 16 |||
    shl64 (uint64OfByte b4) 24 ||| shl64 (uint64OfByte b3) 32 ||| shl64 (uint64OfByte b2) 40 |||
    shl64 (uint64OfByte b1) 48 ||| shl64 (uint64OfByte b0) 56

/-- The loop `for i := 0; i < 32; i += 8 { word := seedBytes[i : i+8];
uSeed ^= binary.BigEndian.Uint64(word) }` of `seededRNG`, started at `i` with
the accumulator `uSeed`.  `iters` counts the executions of the body; the
result is the final accumulator and that count. -/
def foldLoop (seedBytes : List Byte) : Nat → Nat → Nat → Nat → Except Err (Nat × Nat)
  | 0, i, uSeed, iters => if i < 32 then .error .outOfFuel else .ok (uSeed, iters)
  | fuel + 1, i, uSeed, iters =>
    if i < 32 then do
      let word ← sliceExpr seedBytes i (i + 8)
      let w ← bigEndianUint64 word
      foldLoop seedBytes fuel (i + 8) (uSeed ^^^ w) (iters + 1)
    else .ok (uSeed, iters)

/-- The fold of `seededRNG`: `var uSeed uint64` followed by the loop from
`i = 0`.  The loop variable grows at every turn and the guard is `i < 32`, so
32 turns of fuel are more than the loop can use. -/
def foldSeed (seedBytes : List Byte) : Except Err (Nat × Nat) :=
  foldLoop seedBytes 32 0 0 0

/-- The Go conversion `int64(u)` of a `uint64`: the 64 bits are kept and read
as a two's-complement number, bit 63 weighing `-2 ^ 63`. -/
def int64OfUint64 (u : Nat) : Int :=
  ((u % 2 ^ 63 : Nat) : Int) - (if u / 2 ^ 63 % 2 = 1 then 2 ^ 63 else 0)

/-- The Go conversion `uint64(s)` of an `int64`: the value modulo `2 ^ 64`. -/
def uint64OfInt64 (s : Int) : Nat := (s % 2 ^ 64).toNat

/-- Go `*rand.Rand` as far as the program uses it.  The state `σ` stands for
the generator object; its internals are not part of the repository. -/
structure Rand (σ : Type) where
  /-- The expression `rand.New(rand.NewSource(seed))`. -/
  newSource : Int → σ
  /-- The method `Int63n(n)`: a draw and the advanced generator. -/
  int63n : σ → Int → Int × σ
  /-- The method `int31n(n)`: a draw and the advanced generator. -/
  int31n : σ → Int → Int × σ

/-- The documented range of the two bounded draws: for `n > 0` a value in the
half-open interval `[0, n)`; `int31n` takes an `int32` argument. -/
def Rand.InRange {σ : Type} (r : Rand σ) : Prop :=
  (∀ s n, 0 < n → 0 ≤ (r.int63n s n).1 ∧ (r.int63n s n).1 < n) ∧
  (∀ s n, 0 < n → n ≤ 2 ^ 31 - 1 → 0 ≤ (r.int31n s n).1 ∧ (r.int31n s n).1 < n)

/-- Go `seededRNG`: the generator seeded with the XOR fold of the hash, and the
three lines it logs. -/
def seededRNG {σ : Type} (r : Rand σ) (seedHash : Hash) : Except Err (σ × List Event) := do
  let seedBytes := seedHash.bytes
  let (uSeed, _) ← foldSeed seedBytes
  let seed := int64OfUint64 uSeed
  return (r.newSource seed, [.seedHash seedBytes, .xorFolded uSeed, .rngSeed seed])

/-! ## The shuffle (`(*rand.Rand).Shuffle` and the swap callback of `main`) -/

/-- The Go conversion `int32(x)` of an `int`: the low 32 bits, read as a
two's-complement number. -/
def int32OfInt (x : Int) : Int := Int.bmod x (2 ^ 32)

/-- The Go index expression `metadata[i]` with an `int` index. -/
def indexAt {α : Type} (metadata : List α) (i : Int) : Except Err α :=
  if i < 0 then .error (.indexOutOfRange i metadata.length)
  else
    match metadata[i.toNat]? with
    | some x => .ok x
    | none => .error (.indexOutOfRange i metadata.length)

/-- The callback body `metadata[i], metadata[j] = metadata[j], metadata[i]`:
both elements are read before either is written; an index out of range is a
panic, index `i` being checked before index `j`; then the two elements are
assigned from left to right. -/
def swapCallback {α : Type} (metadata : List α) (i j : Int) : Except Err (List α) := do
  let mi ← indexAt metadata i
  let mj ← indexAt metadata j
  return (metadata.set i.toNat mj).set j.toNat mi

/-- The callback with the memory it acts on made explicit: the slice `metadata`
and the event log, in which the call is recorded. -/
def swapStep {α : Type} (m : List α × List Event) (i j : Int) :
    Except Err (List α × List Event) := do
  let metadata ← swapCallback m.1 i j
  return (metadata, m.2 ++ [.swap i j])

/-- One loop of `Shuffle`, `for ; i > bound; i-- { j := draw(i + 1); swap(i, j) }`,
on the memory `μ` the callback acts on.  The result is the final `i`, the
generator and the memory. -/
def shuffleLoop {σ μ : Type} (bound : Int) (draw : σ → Int → Int × σ)
    (swap : μ → Int → Int → Except Err μ) :
    Nat → Int → σ → μ → Except Err (Int × σ × μ)
  | 0, i, g, m => if i > bound then .error .outOfFuel else .ok (i, g, m)
  | fuel + 1, i, g, m =>
    if i > bound then do
      let (j, g) := draw g (i + 1)
      let m ← swap m i j
      shuffleLoop bound draw swap fuel (i - 1) g m
    else .ok (i, g, m)

/-- The constant `1<<31 - 1 - 1` of `Shuffle`, the largest `i` whose draw
argument `i + 1` still fits an `int32`. -/
def shuffleBound : Int := ((1 <<< 31 : Nat) : Int) - 1 - 1

/-- Go `(*rand.Rand).Shuffle(n, swap)`: a panic for `n < 0`; then, from
`i := n - 1`, the loop `for ; i > 1<<31-1-1; i--` drawing
`j := int(r.Int63n(int64(i + 1)))` and the loop `for ; i > 0; i--` drawing
`j := int(r.int31n(int32(i + 1)))`.  `int` and `int64` have the same width, so
only `int32` changes a value.  Each loop turn lowers `i`, which starts below
`n`: `n` turns of fuel suffice for either loop. -/
def Shuffle {σ μ : Type} (r : Rand σ) (g : σ) (n : Int)
    (swap : μ → Int → Int → Except Err μ) (m : μ) : Except Err (σ × μ) :=
  if n < 0 then .error .invalidShuffleArgument
  else do
    let i := n - 1
    let (i, g, m) ← shuffleLoop shuffleBound (fun g k => r.int63n g k) swap n.toNat i g m
    let (_, g, m) ← shuffleLoop 0 (fun g k => r.int31n g (int32OfInt k)) swap n.toNat i g m
    return (g, m)

/-- The statement `rng.Shuffle(len(metadata), func(i, j int) {...})` of `main`. -/
def shuffleMetadata {σ α : Type} (r : Rand σ) (rng : σ) (metadata : List α)
    (log : List Event) :
    Except Err (σ × List α × List Event) :=
  Shuffle r rng (metadata.length : Int) swapStep (metadata, log)

/-! ## Hex decoding (`common.HexToHash`) -/

/-- The byte of an ASCII character. -/
def ascii (c : Char) : Byte := Fin.ofNat c.toNat

/-- The bytes of a Go string literal written in ASCII. -/
def goString (s : String) : List Byte := s.toList.map ascii

/-- go-ethereum `has0xPrefix`:
`len(str) >= 2 && str[0] == '0' && (str[1] == 'x' || str[1] == 'X')`. -/
def has0xPrefix (str : List Byte) : Bool :=
  decide (str.length ≥ 2) && str[0]? == some (ascii '0') &&
    (str[1]? == some (ascii 'x') || str[1]? == some (ascii 'X'))

/-- The table `reverseHexTable` of Go `encoding/hex`: the value of a hex digit,
`none` standing for the entry `0xff` of every other byte. -/
def reverseHexTable (c : Byte) : Option Nat :=
  if (ascii '0').val ≤ c.val ∧ c.val ≤ (ascii '9').val then some (c.val - (ascii '0').val)
  else if (ascii 'a').val ≤ c.val ∧ c.val ≤ (ascii 'f').val then
    some (c.val - (ascii 'a').val + 10)
  else if (ascii 'A').val ≤ c.val ∧ c.val ≤ (ascii 'F').val then
    some (c.val - (ascii 'A').val + 10)
  else none

/-- Go `hex.DecodeString` with its error dropped, as `Hex2Bytes` calls it
(`h, _ := hex.DecodeString(str)`): the bytes decoded before the first
malformed digit or the dangling last digit. -/
def hexDecodeString : List Byte → List Byte
  | p :: q :: rest =>
    match reverseHexTable p, reverseHexTable q with
    | some a, some b => Fin.ofNat ((a <<< 4) ||| b) :: hexDecodeString rest
    | _, _ => []
  | _ => []

/-- go-ethereum `Hex2Bytes`. -/
def Hex2Bytes (str : List Byte) : List Byte := hexDecodeString str

/-- go-ethereum `FromHex`: drop a leading `0x`, put a `0` before a string of
odd length, decode. -/
def FromHex (s : List Byte) : List Byte :=
  let s := if has0xPrefix s then s.drop 2 else s
  let s := if s.length % 2 = 1 then ascii '0' :: s else s
  Hex2Bytes s

/-- The built-in `copy(dst, src)`: the first `min(len(dst), len(src))` elements
of `dst` are overwritten. -/
def copySlice (dst src : List Byte) : List Byte :=
  src.take dst.length ++ dst.drop src.length

/-- The zero value of `Hash`. -/
def zeroHash : Hash := ⟨List.replicate 32 0, by simp⟩

/-- The first statement of `SetBytes`:
`if len(b) > len(h) { b = b[len(b)-HashLength:] }`. -/
def cropToHashLength (b : List Byte) : List Byte :=
  if b.length > 32 then b.drop (b.length - 32) else b

/-- go-ethereum `(*Hash).SetBytes`: the crop of `b`, then
`copy(h[HashLength-len(b):], b)`. -/
def SetBytes (h : Hash) (b : List Byte) : Hash :=
  ⟨h.bytes.take (32 - (cropToHashLength b).length) ++
      copySlice (h.bytes.drop (32 - (cropToHashLength b).length)) (cropToHashLength b), by
    have h1 := h.size
    have h2 : (cropToHashLength b).length ≤ 32 := by
      unfold cropToHashLength
      split
      · rw [List.length_drop]; omega
      · omega
    simp only [copySlice, List.length_append, List.length_take, List.length_drop]
    omega⟩

/-- go-ethereum `BytesToHash`: `var h Hash; h.SetBytes(b); return h`. -/
def BytesToHash (b : List Byte) : Hash := SetBytes zeroHash b

/-- go-ethereum `HexToHash`: `BytesToHash(FromHex(s))`. -/
def HexToHash (s : List Byte) : Hash := BytesToHash (FromHex s)

/-! ## The program (`main`) -/

/-- What `main` reads from its environment. -/
structure Input (α : Type) where
  /-- The value of the flag `seed_hash`; `flag.String` defaults it to `""`. -/
  seedHex : List Byte
  /-- The records `json.Unmarshal(unshuffled, &metadata)` yields, `none` when
  it returns an error. -/
  unmarshalled : Option (List α)
  /-- Whether `json.Marshal(metadata)` succeeds. -/
  marshalOk : Bool
  /-- Whether `os.WriteFile` succeeds. -/
  writeOk : Bool

/-- How a run of `main` ends. -/
inductive Outcome (α : Type) where
  /-- Exit through `log.Fatalf`: the error, the lines logged before it and the
  value of `metadata` at that point. -/
  | fatal (e : Err) (log : List Event) (metadata : List α)
  /-- A run-time panic. -/
  | panicked (e : Err)
  /-- Normal return: the lines logged and the records written to
  `shuffled.json`. -/
  | done (log : List Event) (metadata : List α)

/-- Go `main`. -/
def main {σ α : Type} (r : Rand σ) (inp : Input α) : Outcome α :=
  let log := [Event.initialCollection]
  match inp.unmarshalled with
  | none => .fatal .fatalUnmarshal log []
  | some metadata =>
    if metadata.length ≠ 10000 then .fatal (.fatalSizeMismatch metadata.length) log metadata
    else
      match seededRNG r (HexToHash inp.seedHex) with
      | .error e => .panicked e
      | .ok (rng, lines) =>
        match shuffleMetadata r rng metadata (log ++ lines) with
        | .error e => .panicked e
        | .ok (_, metadata, log) =>
          if !inp.marshalOk then .fatal .fatalMarshal log metadata
          else
            let log := log ++ [Event.shuffledCollection]
            if !inp.writeOk then .fatal .fatalWriteFile log metadata
            else .done log metadata

/-! ## Test generators and sample data -/

/-- A generator that replays a fixed script of draws: each draw pops the head
of the script (0 once the script is used up), whatever the bound. -/
def scripted : Rand (List Nat) where
  newSource := fun _ => []
  int63n := fun s _ => ((s.headD 0 : Nat), s.tail)
  int31n := fun s _ => ((s.headD 0 : Nat), s.tail)

/-- A small linear congruential generator whose bounded draws reduce the state
modulo the bound. -/
def lcg : Rand Nat where
  newSource := fun seed => uint64OfInt64 seed
  int63n := fun s n =>
    (((s % n.toNat : Nat) : Int), (s * 6364136223846793005 + 1442695040888963407) % 2 ^ 64)
  int31n := fun s n =>
    (((s % n.toNat : Nat) : Int), (s * 6364136223846793005 + 1442695040888963407) % 2 ^ 64)

/-! ## Specification-side definitions and sample data -/

/-- The unsigned integer whose big-endian encoding (most significant byte
first) is `bs`. -/
def beValue (bs : List Byte) : Nat := bs.foldl (fun acc b => acc * 256 + b.val) 0

/-- Bytes `8k .. 8k+7` of a hash. -/
def chunk (h : Hash) (k : Nat) : List Byte := (h.bytes.drop (8 * k)).take 8

/-- The word `Wk` of a hash: the integer whose big-endian encoding is its bytes
`8k .. 8k+7`. -/
def word (h : Hash) (k : Nat) : Nat := beValue (chunk h k)

/-- The hash made of the chunks of `h` taken in the order `p 0, p 1, p 2, p 3`. -/
def rearrange (h : Hash) (p : Equiv.Perm (Fin 4)) : Hash :=
  ⟨chunk h (p 0) ++ chunk h (p 1) ++ chunk h (p 2) ++ chunk h (p 3), by
    have hs := h.size
    have h0 := (p 0).isLt
    have h1 := (p 1).isLt
    have h2 := (p 2).isLt
    have h3 := (p 3).isLt
    simp only [chunk, List.length_append, List.length_take, List.length_drop]
    omega⟩

/-- The test hash whose four big-endian words are 1, 2, 0, 0. -/
def hashWords1200 : Hash :=
  ⟨[0, 0, 0, 0, 0, 0, 0, 1, 0, 0, 0, 0, 0, 0, 0, 2,
    0, 0, 0, 0, 0, 0, 0, 0, 0, 0, 0, 0, 0, 0, 0, 0], rfl⟩

/-- The test hash of 31 zero bytes followed by `0x01`. -/
def hashOne : Hash := ⟨List.replicate 31 0 ++ [1], by simp⟩

/-- The list `xs` with positions `i` and `j` exchanged (unchanged when an index
is out of range). -/
def swapAt {α : Type} (xs : List α) (i j : Nat) : List α :=
  match xs[j]?, xs[i]? with
  | some a, some b => (xs.set i a).set j b
  | _, _ => xs

/-- The values of `i` the shuffle visits from `k` down: `k, k-1, ..., 1`. -/
def countdownFrom : Nat → List Int
  | 0 => []
  | k + 1 => ((k + 1 : Nat) : Int) :: countdownFrom k

/-- The draw `Shuffle` makes at a given argument `n = i + 1`: `Int63n(n)` in the
first loop (`i > 1<<31-1-1`), `int31n(int32(n))` in the second. -/
def shuffleDraw {σ : Type} (r : Rand σ) (g : σ) (n : Int) : Int × σ :=
  if n - 1 > shuffleBound then r.int63n g n else r.int31n g (int32OfInt n)

/-- The Fisher-Yates procedure on a list with the draws given: for
`i = k, k-1, ..., 1` exchange positions `i` and `j_i`, the draws being listed
in the order they are made. -/
def fisherYates {α : Type} : Nat → List Nat → List α → List α
  | 0, _, xs => xs
  | i + 1, d, xs => fisherYates i d.tail (swapAt xs (i + 1) (d.headD 0))

/-- A draw sequence `j_k, j_(k-1), ..., j_1` with `0 ≤ j_i ≤ i`. -/
def ValidDrawsFrom : Nat → List Nat → Prop
  | 0, d => d = []
  | _ + 1, [] => False
  | k + 1, j :: d => j ≤ k + 1 ∧ ValidDrawsFrom k d

/-- A draw sequence for a collection of length `N`:
`j_(N-1), ..., j_1` with `0 ≤ j_i ≤ i`. -/
def ValidDraws (N : Nat) (d : List Nat) : Prop := ValidDrawsFrom (N - 1) d

instance decidableValidDrawsFrom : ∀ (k : Nat) (d : List Nat), Decidable (ValidDrawsFrom k d)
  | 0, d => inferInstanceAs (Decidable (d = []))
  | _ + 1, [] => isFalse (fun h => h)
  | k + 1, j :: d =>
    have := decidableValidDrawsFrom k d
    inferInstanceAs (Decidable (j ≤ k + 1 ∧ ValidDrawsFrom k d))

instance decidableValidDraws (N : Nat) (d : List Nat) : Decidable (ValidDraws N d) :=
  decidableValidDrawsFrom (N - 1) d

/-- The shuffle statement of `main` run with the scripted draws `d` on the
collection `xs`: the resulting collection. -/
def shuffleWithDraws {α : Type} (d : List Nat) (xs : List α) : Except Err (List α) :=
  (shuffleMetadata scripted d xs []).map (fun res => res.2.1)

/-- The value of the variable `metadata` when the run ends (empty after a
panic, where the process has no final state). -/
def Outcome.records {α : Type} : Outcome α → List α
  | .fatal _ _ metadata => metadata
  | .panicked _ => []
  | .done _ metadata => metadata

/-- A hex seed of 33 bytes: `0x11` followed by 32 bytes `0xff`. -/
def longSeedHex : List Byte := goString "0x11" ++ List.replicate 64 (ascii 'f')

/-- A collection of 10,000 records, numbered from 0. -/
def tenThousand : List Nat := List.range 10000

/-- The swap calls `(i, j)` of a shuffle loop that starts at `i = k` with the
generator in state `g`, and the generator it leaves: for `i = k, k-1, ..., 1`
in turn, `j` is the value the draw `d` returns at argument `i + 1` from the
current generator, and the generator advances to the one that draw returns. -/
def loopDraws {σ : Type} (d : σ → Int → Int × σ) : Nat → σ → List (Int × Int) × σ
  | 0, g => ([], g)
  | k + 1, g =>
    (((k + 1 : Nat), (d g (((k + 1 : Nat) : Int) + 1)).1) ::
        (loopDraws d k (d g (((k + 1 : Nat) : Int) + 1)).2).1,
      (loopDraws d k (d g (((k + 1 : Nat) : Int) + 1)).2).2)

/-- The swap calls of `Shuffle` started at `i = k` on the generator `g`, each
`j` being the generator's draw `shuffleDraw r _ (i + 1)`, and the generator
left at the end. -/
def shuffleDraws {σ : Type} (r : Rand σ) (k : Nat) (g : σ) : List (Int × Int) × σ :=
  loopDraws (shuffleDraw r) k g

/-- The list obtained from `xs` by exchanging positions `i` and `j` for each
swap call `(i, j)` in turn. -/
def applySwaps {α : Type} (sw : List (Int × Int)) (xs : List α) : List α :=
  sw.foldl (fun ys p => swapAt ys p.1.toNat p.2.toNat) xs

/-- The ghost events of a list of swap calls `(i, j)`. -/
def swapEvents (sw : List (Int × Int)) : List Event := sw.map (fun p => Event.swap p.1 p.2)

/-! ## Theorems -/

theorem chunk_length (h : Hash) (k : Nat) (hk : k < 4) : (chunk h k).length = 8 := by
  have := h.size
  simp only [chunk, List.length_take, List.length_drop]
  omega

theorem or_shift_eq_add (s t k : Nat) (hs : s < 2 ^ k) : s ||| t * 2 ^ k = t * 2 ^ k + s := by
  rw [Nat.or_comm, Nat.mul_comm, Nat.mul_add_lt_is_or hs]

theorem shl64_of_lt (x k : Nat) (h : x * 2 ^ k < 2 ^ 64) : shl64 x k = x * 2 ^ k := by
  rw [shl64, Nat.shiftLeft_eq, Nat.mod_eq_of_lt h]

theorem or_bytes_eq (a0 a1 a2 a3 a4 a5 a6 a7 : Nat) (h1 : a1 < 256) (h2 : a2 < 256)
    (h3 : a3 < 256) (h4 : a4 < 256) (h5 : a5 < 256) (h6 : a6 < 256) (h7 : a7 < 256) :
    (a7 ||| a6 * 2 ^ 8 ||| a5 * 2 ^ 16 ||| a4 * 2 ^ 24 ||| a3 * 2 ^ 32 ||| a2 * 2 ^ 40 |||
      a1 * 2 ^ 48 ||| a0 * 2 ^ 56) =
    ((((((((0 * 256 + a0) * 256 + a1) * 256 + a2) * 256 + a3) * 256 + a4) * 256 + a5) * 256 +
      a6) * 256 + a7) := by
  rw [or_shift_eq_add _ _ 8 (by omega)]
  rw [or_shift_eq_add _ _ 16 (by omega)]
  rw [or_shift_eq_add _ _ 24 (by omega)]
  rw [or_shift_eq_add _ _ 32 (by omega)]
  rw [or_shift_eq_add _ _ 40 (by omega)]
  rw [or_shift_eq_add _ _ 48 (by omega)]
  rw [or_shift_eq_add _ _ 56 (by omega)]
  omega

theorem bigEndian_eight (a0 a1 a2 a3 a4 a5 a6 a7 : Byte) :
    bigEndianUint64 [a0, a1, a2, a3, a4, a5, a6, a7] =
      .ok (beValue [a0, a1, a2, a3, a4, a5, a6, a7]) := by
  have h0 := a0.isLt
  have h1 := a1.isLt
  have h2 := a2.isLt
  have h3 := a3.isLt
  have h4 := a4.isLt
  have h5 := a5.isLt
  have h6 := a6.isLt
  have h7 := a7.isLt
  have e : bigEndianUint64 [a0, a1, a2, a3, a4, a5, a6, a7] =
      .ok (a7.val ||| shl64 a6.val 8 ||| shl64 a5.val 16 ||| shl64 a4.val 24 |||
        shl64 a3.val 32 ||| shl64 a2.val 40 ||| shl64 a1.val 48 ||| shl64 a0.val 56) := rfl
  have v : beValue [a0, a1, a2, a3, a4, a5, a6, a7] =
      ((((((((0 * 256 + a0.val) * 256 + a1.val) * 256 + a2.val) * 256 + a3.val) * 256 +
        a4.val) * 256 + a5.val) * 256 + a6.val) * 256 + a7.val) := rfl
  rw [e, v, shl64_of_lt _ 8 (by omega), shl64_of_lt _ 16 (by omega), shl64_of_lt _ 24 (by omega),
    shl64_of_lt _ 32 (by omega), shl64_of_lt _ 40 (by omega), shl64_of_lt _ 48 (by omega),
    shl64_of_lt _ 56 (by omega), or_bytes_eq _ _ _ _ _ _ _ _ h1 h2 h3 h4 h5 h6 h7]

theorem eq_eight_of_length (c : List Byte) (hc : c.length = 8) :
    ∃ a0 a1 a2 a3 a4 a5 a6 a7, c = [a0, a1, a2, a3, a4, a5, a6, a7] := by
  match c, hc with
  | [a0, a1, a2, a3, a4, a5, a6, a7], _ => exact ⟨a0, a1, a2, a3, a4, a5, a6, a7, rfl⟩

theorem bigEndian_of_length (c : List Byte) (hc : c.length = 8) :
    bigEndianUint64 c = .ok (beValue c) := by
  obtain ⟨a0, a1, a2, a3, a4, a5, a6, a7, rfl⟩ := eq_eight_of_length c hc
  exact bigEndian_eight a0 a1 a2 a3 a4 a5 a6 a7

theorem sliceExpr_append (p c q : List Byte) :
    sliceExpr (p ++ c ++ q) p.length (p.length + c.length) = .ok c := by
  have hle : p.length ≤ p.length + c.length ∧ p.length + c.length ≤ (p ++ c ++ q).length := by
    simp only [List.length_append]; omega
  rw [sliceExpr, if_pos hle, List.append_assoc, List.drop_left, Nat.add_sub_cancel_left,
    List.take_left]

theorem foldLoop_step (s : List Byte) (fuel i u k : Nat) (c : List Byte) (hi : i < 32)
    (hs : sliceExpr s i (i + 8) = .ok c) (hc : c.length = 8) :
    foldLoop s (fuel + 1) i u k = foldLoop s fuel (i + 8) (u ^^^ beValue c) (k + 1) := by
  rw [foldLoop, if_pos hi, hs]
  show Except.bind (bigEndianUint64 c) _ = _
  rw [bigEndian_of_length c hc]
  rfl

theorem foldSeed_chunks (c0 c1 c2 c3 : List Byte) (h0 : c0.length = 8) (h1 : c1.length = 8)
    (h2 : c2.length = 8) (h3 : c3.length = 8) :
    foldSeed (c0 ++ c1 ++ c2 ++ c3) =
      .ok (beValue c0 ^^^ beValue c1 ^^^ beValue c2 ^^^ beValue c3, 4) := by
  have e0 : sliceExpr (c0 ++ c1 ++ c2 ++ c3) 0 (0 + 8) = .ok c0 := by
    have := sliceExpr_append [] c0 (c1 ++ c2 ++ c3)
    simpa [h0, List.append_assoc] using this
  have e1 : sliceExpr (c0 ++ c1 ++ c2 ++ c3) 8 (8 + 8) = .ok c1 := by
    have := sliceExpr_append c0 c1 (c2 ++ c3)
    simpa [h0, h1, List.append_assoc] using this
  have e2 : sliceExpr (c0 ++ c1 ++ c2 ++ c3) 16 (16 + 8) = .ok c2 := by
    have := sliceExpr_append (c0 ++ c1) c2 c3
    simpa [h0, h1, h2, List.append_assoc] using this
  have e3 : sliceExpr (c0 ++ c1 ++ c2 ++ c3) 24 (24 + 8) = .ok c3 := by
    have := sliceExpr_append (c0 ++ c1 ++ c2) c3 []
    simpa [h0, h1, h2, h3, List.append_assoc] using this
  rw [foldSeed, foldLoop_step _ _ 0 _ _ c0 (by omega) e0 h0,
    foldLoop_step _ _ 8 _ _ c1 (by omega) e1 h1,
    foldLoop_step _ _ 16 _ _ c2 (by omega) e2 h2,
    foldLoop_step _ _ 24 _ _ c3 (by omega) e3 h3, foldLoop, if_neg (by omega), Nat.zero_xor]

theorem bytes_eq_chunks (h : Hash) :
    h.bytes = chunk h 0 ++ chunk h 1 ++ chunk h 2 ++ chunk h 3 := by
  have hs := h.size
  have e3 : chunk h 3 = h.bytes.drop 24 := by
    rw [chunk, List.take_of_length_le]
    rw [List.length_drop]; omega
  have d1 : h.bytes.drop 8 = chunk h 1 ++ h.bytes.drop 16 := by
    have e : h.bytes.drop 16 = (h.bytes.drop 8).drop 8 := by rw [List.drop_drop]
    rw [e]
    exact (List.take_append_drop 8 (h.bytes.drop 8)).symm
  have d2 : h.bytes.drop 16 = chunk h 2 ++ h.bytes.drop 24 := by
    have e : h.bytes.drop 24 = (h.bytes.drop 16).drop 8 := by rw [List.drop_drop]
    rw [e]
    exact (List.take_append_drop 8 (h.bytes.drop 16)).symm
  have d0 : h.bytes = chunk h 0 ++ h.bytes.drop 8 := by
    rw [chunk]
    exact (List.take_append_drop 8 h.bytes).symm
  rw [e3, List.append_assoc, List.append_assoc, ← d2, ← d1, ← d0]

theorem foldSeed_eq (h : Hash) :
    foldSeed h.bytes = .ok (word h 0 ^^^ word h 1 ^^^ word h 2 ^^^ word h 3, 4) := by
  have e := foldSeed_chunks (chunk h 0) (chunk h 1) (chunk h 2) (chunk h 3)
    (chunk_length h 0 (by omega)) (chunk_length h 1 (by omega)) (chunk_length h 2 (by omega))
    (chunk_length h 3 (by omega))
  rw [← bytes_eq_chunks h] at e
  exact e

theorem beValue_lt (c : List Byte) (hc : c.length = 8) : beValue c < 2 ^ 64 := by
  obtain ⟨a0, a1, a2, a3, a4, a5, a6, a7, rfl⟩ := eq_eight_of_length c hc
  have h0 := a0.isLt
  have h1 := a1.isLt
  have h2 := a2.isLt
  have h3 := a3.isLt
  have h4 := a4.isLt
  have h5 := a5.isLt
  have h6 := a6.isLt
  have h7 := a7.isLt
  have v : beValue [a0, a1, a2, a3, a4, a5, a6, a7] =
      ((((((((0 * 256 + a0.val) * 256 + a1.val) * 256 + a2.val) * 256 + a3.val) * 256 +
        a4.val) * 256 + a5.val) * 256 + a6.val) * 256 + a7.val) := rfl
  rw [v]
  omega

theorem seededRNG_of_foldSeed {σ : Type} (r : Rand σ) (h : Hash) (u k : Nat)
    (hf : foldSeed h.bytes = .ok (u, k)) :
    seededRNG r h = .ok (r.newSource (int64OfUint64 u),
      [.seedHash h.bytes, .xorFolded u, .rngSeed (int64OfUint64 u)]) := by
  rw [seededRNG]
  show Except.bind (foldSeed h.bytes) _ = _
  rw [hf]
  rfl

theorem xor_fold_perm (f : Fin 4 → Nat) (p : Equiv.Perm (Fin 4)) :
    f (p 0) ^^^ f (p 1) ^^^ f (p 2) ^^^ f (p 3) = f 0 ^^^ f 1 ^^^ f 2 ^^^ f 3 := by
  have hp := Equiv.Perm.map_finRange_perm p
  have hc : RightCommutative (fun (acc : Nat) (k : Fin 4) => acc ^^^ f k) :=
    ⟨fun a x y => by
      show a ^^^ f x ^^^ f y = a ^^^ f y ^^^ f x
      rw [Nat.xor_assoc, Nat.xor_comm (f x), ← Nat.xor_assoc]⟩
  have e := List.Perm.foldl_eq (f := fun (acc : Nat) (k : Fin 4) => acc ^^^ f k) hp 0
  have r4 : List.finRange 4 = [0, 1, 2, 3] := rfl
  rw [r4] at e
  simpa only [List.map, List.foldl, Nat.zero_xor] using e

theorem int64OfUint64_eq (u : Nat) (hu : u < 2 ^ 64) :
    int64OfUint64 u = if u < 2 ^ 63 then (u : Int) else (u : Int) - 2 ^ 64 := by
  unfold int64OfUint64
  split_ifs <;> omega

theorem uint64OfInt64_int64OfUint64 (u : Nat) (hu : u < 2 ^ 64) :
    uint64OfInt64 (int64OfUint64 u) = u := by
  rw [int64OfUint64_eq u hu]
  unfold uint64OfInt64
  split_ifs <;> omega

/-- C1: for every 32-byte hash `h`, the fold loop of `seededRNG` returns (no slice
or index panic, no fuel shortage) after exactly four turns with
`uSeed = W0 XOR W1 XOR W2 XOR W3`, where `Wk` is the unsigned 64-bit integer
whose big-endian encoding is bytes `8k .. 8k+7` of `h`; `seededRNG` logs that
word and seeds the generator with its `int64` conversion. -/
theorem seededRNG_folds_four_big_endian_words {σ : Type} (r : Rand σ) (h : Hash) :
    foldSeed h.bytes = .ok (word h 0 ^^^ word h 1 ^^^ word h 2 ^^^ word h 3, 4) ∧
    word h 0 < 2 ^ 64 ∧ word h 1 < 2 ^ 64 ∧ word h 2 < 2 ^ 64 ∧ word h 3 < 2 ^ 64 ∧
    seededRNG r h = .ok
      (r.newSource (int64OfUint64 (word h 0 ^^^ word h 1 ^^^ word h 2 ^^^ word h 3)),
        [.seedHash h.bytes, .xorFolded (word h 0 ^^^ word h 1 ^^^ word h 2 ^^^ word h 3),
          .rngSeed (int64OfUint64 (word h 0 ^^^ word h 1 ^^^ word h 2 ^^^ word h 3))]) :=
  ⟨foldSeed_eq h, beValue_lt _ (chunk_length h 0 (by omega)),
    beValue_lt _ (chunk_length h 1 (by omega)), beValue_lt _ (chunk_length h 2 (by omega)),
    beValue_lt _ (chunk_length h 3 (by omega)), seededRNG_of_foldSeed r h _ _ (foldSeed_eq h)⟩

/-- C6: for every unsigned 64-bit value `u`, the seed `int64(u)` is the
two's-complement reading of the same 64 bits: it is `u` when `u < 2^63` and
`u - 2^64` otherwise, it lies in the `int64` range, converting it back with
`uint64` yields `u`, and distinct values of `u` give distinct seeds. -/
theorem int64_seed_is_bit_reinterpretation (u : Nat) (hu : u < 2 ^ 64) :
    int64OfUint64 u = (if u < 2 ^ 63 then (u : Int) else (u : Int) - 2 ^ 64) ∧
    -(2 : Int) ^ 63 ≤ int64OfUint64 u ∧ int64OfUint64 u < 2 ^ 63 ∧
    uint64OfInt64 (int64OfUint64 u) = u ∧
    ∀ v, v < 2 ^ 64 → int64OfUint64 u = int64OfUint64 v → u = v := by
  refine ⟨int64OfUint64_eq u hu, ?_, ?_, uint64OfInt64_int64OfUint64 u hu, ?_⟩
  · rw [int64OfUint64_eq u hu]; split_ifs <;> omega
  · rw [int64OfUint64_eq u hu]; split_ifs <;> omega
  · intro v hv e
    rw [← uint64OfInt64_int64OfUint64 u hu, e, uint64OfInt64_int64OfUint64 v hv]

/-- Witness for C6 at the all-ones word `2^64 - 1`, whose seed is `-1`. -/
theorem int64_seed_is_bit_reinterpretation_witness :
    2 ^ 64 - 1 < 2 ^ 64 ∧ int64OfUint64 (2 ^ 64 - 1) = -1 ∧
    uint64OfInt64 (int64OfUint64 (2 ^ 64 - 1)) = 2 ^ 64 - 1 :=
  ⟨by decide,
    (int64_seed_is_bit_reinterpretation (2 ^ 64 - 1) (by decide)).1.trans (by decide),
    (int64_seed_is_bit_reinterpretation (2 ^ 64 - 1) (by decide)).2.2.2.1⟩

/-- C7: on the published test vectors `seededRNG` returns normally and logs the
expected seed: words (1, 2, 0, 0) give 3, the all-zero hash gives 0, and 31 zero
bytes followed by `0x01` give 1. -/
theorem seededRNG_test_vectors {σ : Type} (r : Rand σ) :
    seededRNG r hashWords1200 =
      .ok (r.newSource 3, [.seedHash hashWords1200.bytes, .xorFolded 3, .rngSeed 3]) ∧
    seededRNG r zeroHash =
      .ok (r.newSource 0, [.seedHash zeroHash.bytes, .xorFolded 0, .rngSeed 0]) ∧
    seededRNG r hashOne =
      .ok (r.newSource 1, [.seedHash hashOne.bytes, .xorFolded 1, .rngSeed 1]) :=
  ⟨rfl, rfl, rfl⟩

/-- C8: for every 32-byte hash and every permutation of its four 8-byte chunks,
the rearranged hash folds to the same word in the same four turns, and
`seededRNG` seeds the generator identically. -/
theorem fold_invariant_under_chunk_permutation {σ : Type} (r : Rand σ) (h : Hash)
    (p : Equiv.Perm (Fin 4)) :
    foldSeed (rearrange h p).bytes = foldSeed h.bytes ∧
    (seededRNG r (rearrange h p)).map Prod.fst = (seededRNG r h).map Prod.fst := by
  have e : foldSeed (rearrange h p).bytes = foldSeed h.bytes := by
    rw [foldSeed_eq h]
    show foldSeed (chunk h (p 0) ++ chunk h (p 1) ++ chunk h (p 2) ++ chunk h (p 3)) = _
    rw [foldSeed_chunks _ _ _ _ (chunk_length h _ (Fin.isLt _)) (chunk_length h _ (Fin.isLt _))
      (chunk_length h _ (Fin.isLt _)) (chunk_length h _ (Fin.isLt _))]
    exact congrArg (fun x => Except.ok (x, 4)) (xor_fold_perm (fun k => word h k.val) p)
  refine ⟨e, ?_⟩
  rw [seededRNG_of_foldSeed r h _ _ (foldSeed_eq h),
    seededRNG_of_foldSeed r (rearrange h p) _ _ (e.trans (foldSeed_eq h))]
  rfl

theorem swapAt_length {α : Type} (xs : List α) (i j : Nat) :
    (swapAt xs i j).length = xs.length := by
  unfold swapAt
  split
  · simp only [List.length_set]
  · rfl

theorem swapAt_of_lt {α : Type} (xs : List α) (i j : Nat) (hi : i < xs.length)
    (hj : j < xs.length) :
    swapAt xs i j = (xs.set i xs[j]).set j xs[i] := by
  simp only [swapAt, List.getElem?_eq_getElem hi, List.getElem?_eq_getElem hj]

theorem swapAt_perm {α : Type} (xs : List α) (i j : Nat) : (swapAt xs i j).Perm xs := by
  by_cases hi : i < xs.length
  · by_cases hj : j < xs.length
    · classical
      rw [swapAt_of_lt xs i j hi hj, List.perm_iff_count]
      intro b
      have hj' : j < (xs.set i xs[j]).length := by rw [List.length_set]; exact hj
      rw [List.count_set _ _ _ _ hj', List.count_set _ _ _ _ hi]
      have e : (xs.set i xs[j])[j] = xs[j] := by
        rw [List.getElem_set]
        split
        · rfl
        · rfl
      rw [e]
      have hpos : (xs[i] == b) = true → 0 < List.count b xs := by
        intro hb
        have : xs[i] = b := by simpa using hb
        rw [List.count_pos_iff]
        exact this ▸ List.getElem_mem hi
      by_cases h1 : (xs[i] == b) = true <;> by_cases h2 : (xs[j] == b) = true
      · have := hpos h1
        simp only [h1, h2, if_true]
        omega
      · have := hpos h1
        simp only [h1, h2, if_true]
        simp only [Bool.false_eq_true, if_false]
        omega
      · simp only [h1, h2, if_true]
        simp only [Bool.false_eq_true, if_false]
        omega
      · simp only [h1, h2]
        simp only [Bool.false_eq_true, if_false]
        omega
    · have : xs[j]? = none := List.getElem?_eq_none (by omega)
      simp only [swapAt, this]
      exact List.Perm.refl xs
  · have : xs[i]? = none := List.getElem?_eq_none (by omega)
    cases h : xs[j]? with
    | none =>
      simp only [swapAt, h]
      exact List.Perm.refl xs
    | some a =>
      simp only [swapAt, h, this]
      exact List.Perm.refl xs

theorem swapCallback_of_bounds {α : Type} (xs : List α) (i j : Int) (hi0 : 0 ≤ i)
    (hi : i < xs.length) (hj0 : 0 ≤ j) (hj : j < xs.length) :
    swapCallback xs i j = .ok (swapAt xs i.toNat j.toNat) := by
  have hjn : j.toNat < xs.length := by omega
  have hin : i.toNat < xs.length := by omega
  simp only [swapCallback, indexAt, swapAt, if_neg (not_lt.mpr hj0), if_neg (not_lt.mpr hi0),
    List.getElem?_eq_getElem hjn, List.getElem?_eq_getElem hin]
  rfl

theorem swapStep_of_bounds {α : Type} (xs : List α) (tr : List Event) (i j : Int) (hi0 : 0 ≤ i)
    (hi : i < xs.length) (hj0 : 0 ≤ j) (hj : j < xs.length) :
    swapStep (xs, tr) i j = .ok (swapAt xs i.toNat j.toNat, tr ++ [.swap i j]) := by
  rw [swapStep]
  show Except.bind (swapCallback xs i j) _ = _
  rw [swapCallback_of_bounds xs i j hi0 hi hj0 hj]
  rfl

theorem shuffleBound_eq : shuffleBound = 2147483646 := by decide

theorem shuffleLoop_exit {σ μ : Type} (bound : Int) (d : σ → Int → Int × σ)
    (swap : μ → Int → Int → Except Err μ) (fuel : Nat) (i : Int) (g : σ) (m : μ)
    (h : ¬ i > bound) : shuffleLoop bound d swap fuel i g m = .ok (i, g, m) := by
  cases fuel with
  | zero => rw [shuffleLoop, if_neg h]
  | succ f => rw [shuffleLoop, if_neg h]

theorem shuffleLoop_step {σ μ : Type} (bound : Int) (d : σ → Int → Int × σ)
    (swap : μ → Int → Int → Except Err μ) (fuel : Nat) (i : Int) (g : σ) (m : μ)
    (h : i > bound) :
    shuffleLoop bound d swap (fuel + 1) i g m =
      (swap m i (d g (i + 1)).1).bind
        (fun m1 => shuffleLoop bound d swap fuel (i - 1) (d g (i + 1)).2 m1) := by
  rw [shuffleLoop, if_pos h]
  rfl

theorem shuffleLoop_congr {σ μ : Type} (bound : Int) (hb : 0 ≤ bound)
    (dA dB : σ → Int → Int × σ)
    (swap : μ → Int → Int → Except Err μ) :
    ∀ (fuelA fuelB : Nat) (i : Int) (g : σ) (m : μ),
      (∀ g n, n ≤ i + 1 → dA g n = dB g n) → i < fuelA → i < fuelB →
      shuffleLoop bound dA swap fuelA i g m = shuffleLoop bound dB swap fuelB i g m := by
  intro fuelA
  induction fuelA with
  | zero =>
    intro fuelB i g m _ hA _
    rw [shuffleLoop_exit _ _ _ _ _ _ _ (by omega), shuffleLoop_exit _ _ _ _ _ _ _ (by omega)]
  | succ fA ih =>
    intro fuelB i g m hd hA hB
    by_cases h : i > bound
    · obtain ⟨fB, rfl⟩ : ∃ fB, fuelB = fB + 1 := ⟨fuelB - 1, by omega⟩
      rw [shuffleLoop_step _ _ _ _ _ _ _ h, shuffleLoop_step _ _ _ _ _ _ _ h,
        hd g (i + 1) (le_refl _)]
      cases swap m i (dB g (i + 1)).1 with
      | error e => rfl
      | ok m1 =>
        exact ih fB (i - 1) _ m1 (fun g n hn => hd g n (by omega)) (by omega) (by omega)
    · rw [shuffleLoop_exit _ _ _ _ _ _ _ h, shuffleLoop_exit _ _ _ _ _ _ _ h]

theorem shuffleLoop_fuse {σ μ : Type} (b : Int) (hb : 0 ≤ b) (d1 d2 : σ → Int → Int × σ)
    (swap : μ → Int → Int → Except Err μ) :
    ∀ (fuel f1 f2 : Nat) (i : Int) (g : σ) (m : μ), i < fuel → i < f1 → i < f2 →
      (shuffleLoop b d1 swap f1 i g m).bind
          (fun r => shuffleLoop 0 d2 swap f2 r.1 r.2.1 r.2.2) =
        shuffleLoop 0 (fun g n => if n - 1 > b then d1 g n else d2 g n) swap fuel i g m := by
  intro fuel
  induction fuel with
  | zero =>
    intro f1 f2 i g m h _ _
    rw [shuffleLoop_exit b _ _ _ _ _ _ (by omega), shuffleLoop_exit 0 _ _ 0 _ _ _ (by omega)]
    exact shuffleLoop_exit 0 _ _ _ _ _ _ (by omega)
  | succ f ih =>
    intro f1 f2 i g m h h1 h2
    by_cases hi : i > b
    · obtain ⟨k1, rfl⟩ : ∃ k1, f1 = k1 + 1 := ⟨f1 - 1, by omega⟩
      rw [shuffleLoop_step _ _ _ _ _ _ _ hi, shuffleLoop_step 0 _ _ _ _ _ _ (by omega)]
      have e : (if i + 1 - 1 > b then d1 g (i + 1) else d2 g (i + 1)) = d1 g (i + 1) :=
        if_pos (by omega)
      simp only [e]
      cases swap m i (d1 g (i + 1)).1 with
      | error e => rfl
      | ok m1 => exact ih k1 f2 (i - 1) _ m1 (by omega) (by omega) (by omega)
    · rw [shuffleLoop_exit b _ _ _ _ _ _ hi]
      exact shuffleLoop_congr 0 (le_refl _) _ _ swap f2 (f + 1) i g m
        (fun g n hn => (if_neg (by omega)).symm) h2 h

theorem Shuffle_eq {σ μ : Type} (r : Rand σ) (g : σ) (n : Int) (hn : 0 ≤ n)
    (swap : μ → Int → Int → Except Err μ) (m : μ) :
    Shuffle r g n swap m =
      (shuffleLoop 0 (shuffleDraw r) swap n.toNat (n - 1) g m).bind
        (fun res => .ok (res.2.1, res.2.2)) := by
  have key := shuffleLoop_fuse shuffleBound (by rw [shuffleBound_eq]; omega)
    (fun g k => r.int63n g k) (fun g k => r.int31n g (int32OfInt k)) swap n.toNat n.toNat n.toNat
    (n - 1) g m (by omega) (by omega) (by omega)
  have e : (fun g n => if n - 1 > shuffleBound then (fun g k => r.int63n g k) g n
      else (fun g k => r.int31n g (int32OfInt k)) g n) = shuffleDraw r := rfl
  rw [e] at key
  rw [← key, Shuffle, if_neg (by omega)]
  show (shuffleLoop shuffleBound (fun g k => r.int63n g k) swap n.toNat (n - 1) g m).bind
      (fun res1 => (shuffleLoop 0 (fun g k => r.int31n g (int32OfInt k)) swap n.toNat
        res1.1 res1.2.1 res1.2.2).bind (fun res => .ok (res.2.1, res.2.2))) = _
  cases shuffleLoop shuffleBound (fun g k => r.int63n g k) swap n.toNat (n - 1) g m with
  | error e => rfl
  | ok res => rfl

theorem shuffleLoop_fuel_suffices {σ μ : Type} (bound : Int) (hb : 0 ≤ bound)
    (d : σ → Int → Int × σ) (swap : μ → Int → Int → Except Err μ)
    (hswap : ∀ m i j, swap m i j ≠ .error .outOfFuel) :
    ∀ (fuel : Nat) (i : Int) (g : σ) (m : μ), i < fuel →
      shuffleLoop bound d swap fuel i g m ≠ .error .outOfFuel := by
  intro fuel
  induction fuel with
  | zero =>
    intro i g m hf
    rw [shuffleLoop_exit _ _ _ _ _ _ _ (by omega)]
    exact fun h => Except.noConfusion h
  | succ f ih =>
    intro i g m hf
    by_cases hi : i > bound
    · rw [shuffleLoop_step _ _ _ _ _ _ _ hi]
      cases hs : swap m i (d g (i + 1)).1 with
      | error e =>
        intro h
        have he : e = Err.outOfFuel := Except.error.inj h
        exact hswap m i (d g (i + 1)).1 (hs.trans (congrArg (fun x => Except.error x) he))
      | ok m1 => exact ih (i - 1) _ m1 (by omega)
    · rw [shuffleLoop_exit _ _ _ _ _ _ _ hi]
      exact fun h => Except.noConfusion h

theorem Shuffle_fuel_suffices {σ μ : Type} (r : Rand σ) (g : σ) (n : Int)
    (swap : μ → Int → Int → Except Err μ) (hswap : ∀ m i j, swap m i j ≠ .error .outOfFuel)
    (m : μ) : Shuffle r g n swap m ≠ .error .outOfFuel := by
  by_cases hn : n < 0
  · rw [Shuffle, if_pos hn]
    exact fun h => Err.noConfusion (Except.error.inj h)
  · rw [Shuffle_eq r g n (by omega)]
    have h1 := shuffleLoop_fuel_suffices 0 (le_refl _) (shuffleDraw r) swap hswap n.toNat
      (n - 1) g m (by omega)
    cases hl : shuffleLoop 0 (shuffleDraw r) swap n.toNat (n - 1) g m with
    | error e =>
      intro h
      have h2 : (Except.error e : Except Err (Int × σ × μ)) = .error .outOfFuel :=
        congrArg (fun x => Except.error x) (Except.error.inj h)
      exact h1 (hl.trans h2)
    | ok res => exact fun h => Except.noConfusion h

theorem int32OfInt_of_small (n : Int) (h0 : 0 ≤ n) (h1 : n ≤ 2147483647) :
    int32OfInt n = n := by
  unfold int32OfInt Int.bmod
  have e : n % ((2 ^ 32 : Nat) : Int) = n := Int.emod_eq_of_lt h0 (by norm_num; omega)
  rw [e]
  norm_num
  omega

theorem shuffleDraw_inRange {σ : Type} (r : Rand σ) (hr : r.InRange) (g : σ) (n : Int)
    (hn : 0 < n) : 0 ≤ (shuffleDraw r g n).1 ∧ (shuffleDraw r g n).1 < n := by
  unfold shuffleDraw
  split
  · exact hr.1 g n hn
  · rename_i h
    rw [shuffleBound_eq] at h
    rw [int32OfInt_of_small n (by omega) (by omega)]
    exact hr.2 g n hn (by norm_num; omega)

theorem countdownFrom_toNat (i : Int) (hi : 0 < i) :
    countdownFrom i.toNat = i :: countdownFrom (i - 1).toNat := by
  obtain ⟨k, hk⟩ : ∃ k : Nat, i.toNat = k + 1 := ⟨i.toNat - 1, by omega⟩
  have e : (i - 1).toNat = k := by omega
  have e2 : ((k + 1 : Nat) : Int) = i := by omega
  rw [hk, e, countdownFrom, e2]

theorem countdownFrom_length (k : Nat) : (countdownFrom k).length = k := by
  induction k with
  | zero => rfl
  | succ k ih => rw [countdownFrom, List.length_cons, ih]

theorem loopDraws_toNat {σ : Type} (d : σ → Int → Int × σ) (i : Int) (hi : 0 < i)
    (g : σ) :
    loopDraws d i.toNat g =
      ((i, (d g (i + 1)).1) :: (loopDraws d (i - 1).toNat (d g (i + 1)).2).1,
        (loopDraws d (i - 1).toNat (d g (i + 1)).2).2) := by
  obtain ⟨k, hk⟩ : ∃ k : Nat, i.toNat = k + 1 := ⟨i.toNat - 1, by omega⟩
  have e : (i - 1).toNat = k := by omega
  have e2 : ((k + 1 : Nat) : Int) = i := by omega
  rw [hk, e, loopDraws, e2]

theorem shuffleDraw_of_le {σ : Type} (r : Rand σ) (g : σ) (i : Int) (h0 : 0 ≤ i)
    (hi : i ≤ shuffleBound) : shuffleDraw r g (i + 1) = r.int31n g (i + 1) := by
  have hb := shuffleBound_eq
  rw [shuffleDraw, if_neg (by omega), int32OfInt_of_small (i + 1) (by omega) (by omega)]

theorem shuffleDraw_of_gt {σ : Type} (r : Rand σ) (g : σ) (i : Int) (hi : shuffleBound < i) :
    shuffleDraw r g (i + 1) = r.int63n g (i + 1) := by
  rw [shuffleDraw, if_pos (by omega)]

theorem shuffleLoop_inRange {σ α : Type} (d : σ → Int → Int × σ)
    (hd : ∀ g n, 0 < n → 0 ≤ (d g n).1 ∧ (d g n).1 < n) :
    ∀ (fuel : Nat) (i : Int) (g : σ) (xs : List α) (tr : List Event),
      i < fuel → i < xs.length →
      ∃ (res : Int × σ × List α) (sw : List (Int × Int)),
        shuffleLoop 0 d swapStep fuel i g (xs, tr) =
          .ok (res.1, res.2.1, (res.2.2, tr ++ swapEvents sw)) ∧
        sw = (loopDraws d i.toNat g).1 ∧ res.2.1 = (loopDraws d i.toNat g).2 ∧
        res.2.2 = applySwaps sw xs ∧ res.2.2.Perm xs ∧
        sw.map Prod.fst = countdownFrom i.toNat ∧ ∀ p ∈ sw, 0 ≤ p.2 ∧ p.2 ≤ p.1 := by
  intro fuel
  induction fuel with
  | zero =>
    intro i g xs tr hf _
    have h0 : i.toNat = 0 := by omega
    refine ⟨(i, g, xs), [], ?_, ?_, ?_, rfl, List.Perm.refl _, ?_, ?_⟩
    · rw [shuffleLoop_exit _ _ _ _ _ _ _ (by omega)]
      simp only [swapEvents, List.map_nil, List.append_nil]
    · rw [h0]
      rfl
    · rw [h0]
      rfl
    · rw [h0]
      rfl
    · intro p hp
      cases hp
  | succ f ih =>
    intro i g xs tr hf hlen
    by_cases hi : i > 0
    · obtain ⟨hj0, hj1⟩ := hd g (i + 1) (by omega)
      have hs := swapStep_of_bounds xs tr i (d g (i + 1)).1 (by omega) hlen hj0 (by omega)
      obtain ⟨res, sw, hrun, hsw, hgen, happ, hperm, hfst, hrange⟩ :=
        ih (i - 1) (d g (i + 1)).2 (swapAt xs i.toNat (d g (i + 1)).1.toNat)
          (tr ++ [Event.swap i (d g (i + 1)).1]) (by omega)
          (by rw [swapAt_length]; omega)
      refine ⟨res, (i, (d g (i + 1)).1) :: sw, ?_, ?_, ?_, ?_,
        hperm.trans (swapAt_perm _ _ _), ?_, ?_⟩
      · rw [shuffleLoop_step _ _ _ _ _ _ _ hi, hs]
        show shuffleLoop 0 d swapStep f (i - 1) _ _ = _
        rw [hrun]
        simp only [swapEvents, List.map_cons, List.append_assoc, List.singleton_append]
      · rw [loopDraws_toNat d i hi g, hsw]
      · rw [loopDraws_toNat d i hi g, hgen]
      · rw [happ]
        rfl
      · rw [List.map_cons, hfst, countdownFrom_toNat i hi]
      · intro p hp
        rcases List.mem_cons.mp hp with rfl | hp
        · exact ⟨hj0, by omega⟩
        · exact hrange p hp
    · have h0 : i.toNat = 0 := by omega
      refine ⟨(i, g, xs), [], ?_, ?_, ?_, rfl, List.Perm.refl _, ?_, ?_⟩
      · rw [shuffleLoop_exit _ _ _ _ _ _ _ hi]
        simp only [swapEvents, List.map_nil, List.append_nil]
      · rw [h0]
        rfl
      · rw [h0]
        rfl
      · rw [h0]
        rfl
      · intro p hp
        cases hp

theorem shuffleMetadata_inRange {σ α : Type} (r : Rand σ) (hr : r.InRange) (rng : σ)
    (metadata : List α) (log : List Event) :
    ∃ (rng1 : σ) (out : List α) (sw : List (Int × Int)),
      shuffleMetadata r rng metadata log = .ok (rng1, out, log ++ swapEvents sw) ∧
      sw = (shuffleDraws r (metadata.length - 1) rng).1 ∧
      rng1 = (shuffleDraws r (metadata.length - 1) rng).2 ∧
      out = applySwaps sw metadata ∧ out.Perm metadata ∧
      sw.map Prod.fst = countdownFrom (metadata.length - 1) ∧
      ∀ p ∈ sw, 0 ≤ p.2 ∧ p.2 ≤ p.1 := by
  obtain ⟨res, sw, hrun, hsw, hgen, happ, hperm, hfst, hrange⟩ :=
    shuffleLoop_inRange (shuffleDraw r) (shuffleDraw_inRange r hr) metadata.length
      ((metadata.length : Int) - 1) rng metadata log (by omega) (by omega)
  have e : ((metadata.length : Int) - 1).toNat = metadata.length - 1 := by omega
  rw [e] at hsw hgen hfst
  refine ⟨res.2.1, res.2.2, sw, ?_, hsw, hgen, happ, hperm, hfst, hrange⟩
  rw [shuffleMetadata, Shuffle_eq r rng _ (by omega), Int.toNat_ofNat, hrun]
  rfl

theorem lcg_inRange : lcg.InRange := by
  have key : ∀ (s : Nat) (n : Int), 0 < n → (0 : Int) ≤ ((s % n.toNat : Nat) : Int) ∧
      ((s % n.toNat : Nat) : Int) < n := by
    intro s n hn
    have h1 : s % n.toNat < n.toNat := Nat.mod_lt _ (by omega)
    omega
  exact ⟨fun s n hn => key s n hn, fun s n hn _ => key s n hn⟩

theorem shuffleDraw_scripted (g : List Nat) (n : Int) :
    shuffleDraw scripted g n = (((g.headD 0 : Nat) : Int), g.tail) := by
  unfold shuffleDraw
  split <;> rfl

theorem shuffleLoop_scripted {α : Type} :
    ∀ (k fuel : Nat) (d : List Nat) (xs : List α) (tr : List Event),
      ValidDrawsFrom k d → k < xs.length → k < fuel →
      ∃ tr1, shuffleLoop 0 (shuffleDraw scripted) swapStep fuel (k : Int) d (xs, tr) =
        .ok (0, [], (fisherYates k d xs, tr1)) := by
  intro k
  induction k with
  | zero =>
    intro fuel d xs tr hv _ _
    have hd : d = [] := hv
    subst hd
    exact ⟨tr, shuffleLoop_exit _ _ _ _ _ _ _ (by simp)⟩
  | succ k ih =>
    intro fuel d xs tr hv hlen hf
    cases d with
    | nil => exact absurd hv (fun h => h)
    | cons j d1 =>
      obtain ⟨hj, hv1⟩ := hv
      obtain ⟨f, rfl⟩ : ∃ f, fuel = f + 1 := ⟨fuel - 1, by omega⟩
      have hpos : ((k + 1 : Nat) : Int) > 0 := by omega
      have hs := swapStep_of_bounds xs tr ((k + 1 : Nat) : Int) ((j : Nat) : Int) (by omega)
        (by omega) (by omega) (by omega)
      rw [Int.toNat_ofNat, Int.toNat_ofNat] at hs
      obtain ⟨tr1, h1⟩ := ih f d1 (swapAt xs (k + 1) j)
        (tr ++ [Event.swap ((k + 1 : Nat) : Int) ((j : Nat) : Int)]) hv1
        (by rw [swapAt_length]; omega) (by omega)
      refine ⟨tr1, ?_⟩
      rw [shuffleLoop_step _ _ _ _ _ _ _ hpos, shuffleDraw_scripted]
      show (swapStep (xs, tr) ((k + 1 : Nat) : Int) ((j : Nat) : Int)).bind _ = _
      rw [hs]
      have e : ((k + 1 : Nat) : Int) - 1 = (k : Int) := by omega
      show shuffleLoop 0 (shuffleDraw scripted) swapStep f (((k + 1 : Nat) : Int) - 1) d1 _ = _
      rw [e]
      exact h1

theorem shuffleWithDraws_eq {α : Type} (d : List Nat) (xs : List α)
    (hv : ValidDraws xs.length d) :
    shuffleWithDraws d xs = .ok (fisherYates (xs.length - 1) d xs) := by
  unfold shuffleWithDraws shuffleMetadata
  rw [Shuffle_eq scripted d _ (by omega), Int.toNat_ofNat]
  cases hlen : xs.length with
  | zero =>
    have hd : d = [] := by
      have := hv
      rw [hlen] at this
      exact this
    subst hd
    rw [shuffleLoop_exit _ _ _ _ _ _ _ (by simp)]
    rfl
  | succ k =>
    have hv1 : ValidDrawsFrom k d := by
      have := hv
      rw [hlen] at this
      exact this
    obtain ⟨tr1, h1⟩ := shuffleLoop_scripted k (k + 1) d xs [] hv1 (by omega) (by omega)
    have e : ((k + 1 : Nat) : Int) - 1 = (k : Int) := by omega
    rw [e, h1]
    rfl

theorem swapAt_append_left {α : Type} (xs ys : List α) (i j : Nat) (hi : i < xs.length)
    (hj : j < xs.length) : swapAt (xs ++ ys) i j = swapAt xs i j ++ ys := by
  have hi2 : i < (xs ++ ys).length := by rw [List.length_append]; omega
  have hj2 : j < (xs ++ ys).length := by rw [List.length_append]; omega
  rw [swapAt_of_lt _ _ _ hi2 hj2, swapAt_of_lt _ _ _ hi hj, List.getElem_append_left hi,
    List.getElem_append_left hj, List.set_append_left _ _ hi,
    List.set_append_left _ _ (by rw [List.length_set]; exact hj)]

theorem swapAt_last {α : Type} (xs : List α) (k j : Nat) (hlen : xs.length = k + 2)
    (hj : j ≤ k + 1) (y : α) (hy : xs[j]? = some y) :
    ∃ ys : List α, ys.length = k + 1 ∧ swapAt xs (k + 1) j = ys ++ [y] := by
  have hjl : j < xs.length := by omega
  have hkl : k + 1 < xs.length := by omega
  have hyj : xs[j] = y := by
    rw [List.getElem?_eq_getElem hjl] at hy
    exact Option.some.inj hy
  have hL : (swapAt xs (k + 1) j).length = k + 2 := by rw [swapAt_length, hlen]
  have hget : (swapAt xs (k + 1) j)[k + 1]? = some y := by
    rw [swapAt_of_lt _ _ _ hkl hjl, List.getElem?_set]
    split
    · rename_i h
      subst h
      rw [if_pos (by rw [List.length_set]; exact hkl), hyj]
    · rw [List.getElem?_set, if_pos rfl, if_pos hkl, hyj]
  refine ⟨(swapAt xs (k + 1) j).take (k + 1), by rw [List.length_take, hL]; omega, ?_⟩
  have h1 := @List.take_succ _ (swapAt xs (k + 1) j) (k + 1)
  rw [hget, List.take_of_length_le (by omega)] at h1
  exact h1

theorem fisherYates_append {α : Type} :
    ∀ (k : Nat) (d : List Nat) (xs : List α) (x : α), k < xs.length → ValidDrawsFrom k d →
      fisherYates k d (xs ++ [x]) = fisherYates k d xs ++ [x] := by
  intro k
  induction k with
  | zero => intro d xs x _ _; rfl
  | succ k ih =>
    intro d xs x hlen hv
    cases d with
    | nil => exact absurd hv (fun h => h)
    | cons j d1 =>
      obtain ⟨hj, hv1⟩ := hv
      show fisherYates k d1 (swapAt (xs ++ [x]) (k + 1) j) =
        fisherYates k d1 (swapAt xs (k + 1) j) ++ [x]
      rw [swapAt_append_left xs [x] (k + 1) j hlen (by omega)]
      exact ih d1 _ x (by rw [swapAt_length]; omega) hv1

theorem fisherYates_perm {α : Type} :
    ∀ (k : Nat) (d : List Nat) (xs : List α), (fisherYates k d xs).Perm xs := by
  intro k
  induction k with
  | zero => intro d xs; exact List.Perm.refl xs
  | succ k ih => intro d xs; exact (ih _ _).trans (swapAt_perm _ _ _)

theorem fisherYates_unique_draws {α : Type} :
    ∀ (k : Nat) (xs out : List α), xs.length = k + 1 → xs.Nodup → out.Perm xs →
      ∃! d, ValidDrawsFrom k d ∧ fisherYates k d xs = out := by
  intro k
  induction k with
  | zero =>
    intro xs out hlen _ hperm
    obtain ⟨x, rfl⟩ := List.length_eq_one.mp hlen
    have hout : out = [x] := List.perm_singleton.mp hperm
    refine ⟨[], ⟨rfl, by rw [hout]; rfl⟩, ?_⟩
    rintro d ⟨hd, _⟩
    exact hd
  | succ k ih =>
    intro xs out hlen hnd hperm
    have hout_len : out.length = k + 2 := hperm.length_eq.trans hlen
    obtain ⟨out1, y, rfl⟩ : ∃ out1 y, out = out1 ++ [y] := by
      rcases List.eq_nil_or_concat out with h | ⟨L, b, h⟩
      · subst h
        simp at hout_len
      · exact ⟨L, b, by rw [h, List.concat_eq_append]⟩
    have hy : y ∈ xs := hperm.subset (by simp)
    obtain ⟨j, hj, hjy⟩ := List.mem_iff_getElem.mp hy
    have hjy1 : xs[j]? = some y := by rw [List.getElem?_eq_getElem hj, hjy]
    obtain ⟨ys, hys_len, hys⟩ := swapAt_last xs k j hlen (by omega) y hjy1
    have hys_perm : (ys ++ [y]).Perm (out1 ++ [y]) := by
      rw [← hys]
      exact (swapAt_perm _ _ _).trans hperm.symm
    have hys_perm1 : out1.Perm ys := ((List.perm_append_right_iff [y]).mp hys_perm).symm
    have hys_nd : ys.Nodup := by
      have h : (ys ++ [y]).Nodup := by
        rw [← hys]
        exact (swapAt_perm _ _ _).nodup_iff.mpr hnd
      exact (List.nodup_append.mp h).1
    obtain ⟨d1, ⟨hd1v, hd1e⟩, hd1u⟩ := ih ys out1 hys_len hys_nd hys_perm1
    refine ⟨j :: d1, ⟨⟨by omega, hd1v⟩, ?_⟩, ?_⟩
    · show fisherYates k d1 (swapAt xs (k + 1) j) = _
      rw [hys, fisherYates_append k d1 ys y (by omega) hd1v, hd1e]
    · rintro d2 ⟨hv2, he2⟩
      cases d2 with
      | nil => exact absurd hv2 (fun h => h)
      | cons j2 d3 =>
        obtain ⟨hj2, hv3⟩ := hv2
        have hj2lt : j2 < xs.length := by omega
        obtain ⟨ys2, hys2_len, hys2⟩ :=
          swapAt_last xs k j2 hlen hj2 xs[j2] (List.getElem?_eq_getElem hj2lt)
        have he3 : fisherYates k d3 ys2 ++ [xs[j2]] = out1 ++ [y] := by
          rw [← fisherYates_append k d3 ys2 _ (by omega) hv3, ← hys2]
          exact he2
        obtain ⟨h1, h2⟩ := List.append_inj' he3 rfl
        have hjj : j2 = j := by
          have h3 : xs[j2] = xs[j] := by
            rw [hjy]
            exact List.singleton_inj.mp h2
          exact hnd.getElem_inj_iff.mp h3
        subst hjj
        have hyy : ys2 = ys := by
          have h4 := hys2.symm.trans hys
          exact (List.append_inj' h4 rfl).1
        subst hyy
        rw [hd1u d3 ⟨hv3, h1⟩]

theorem mem_countdownFrom (k : Nat) (x : Int) (hx : x ∈ countdownFrom k) :
    1 ≤ x ∧ x ≤ k := by
  induction k with
  | zero => cases hx
  | succ k ih =>
    rw [countdownFrom] at hx
    rcases List.mem_cons.mp hx with rfl | h
    · omega
    · have := ih h
      omega

theorem seededRNG_ok {σ : Type} (r : Rand σ) (h : Hash) :
    seededRNG r h = .ok
      (r.newSource (int64OfUint64 (word h 0 ^^^ word h 1 ^^^ word h 2 ^^^ word h 3)),
        [.seedHash h.bytes, .xorFolded (word h 0 ^^^ word h 1 ^^^ word h 2 ^^^ word h 3),
          .rngSeed (int64OfUint64 (word h 0 ^^^ word h 1 ^^^ word h 2 ^^^ word h 3))]) :=
  seededRNG_of_foldSeed r h _ _ (foldSeed_eq h)

theorem seededRNG_generator {σ : Type} (r : Rand σ) (h : Hash) :
    (seededRNG r h).map Prod.fst =
      .ok (r.newSource (int64OfUint64 (word h 0 ^^^ word h 1 ^^^ word h 2 ^^^ word h 3))) := by
  rw [seededRNG_ok]
  simp only [Except.map]

theorem seed_of_equal_hash {σ : Type} (r : Rand σ) (h1 h2 : Hash) (hh : h1 = h2) :
    ∃ u : Nat, foldSeed h1.bytes = .ok (u, 4) ∧ foldSeed h2.bytes = .ok (u, 4) ∧
      (seededRNG r h1).map Prod.fst = .ok (r.newSource (int64OfUint64 u)) ∧
      (seededRNG r h2).map Prod.fst = .ok (r.newSource (int64OfUint64 u)) := by
  subst hh
  exact ⟨_, foldSeed_eq h1, foldSeed_eq h1, seededRNG_generator r h1, seededRNG_generator r h1⟩

theorem main_of_size_mismatch {σ α : Type} (r : Rand σ) (inp : Input α) (metadata : List α)
    (hu : inp.unmarshalled = some metadata) (hn : metadata.length ≠ 10000) :
    main r inp = .fatal (.fatalSizeMismatch metadata.length) [.initialCollection] metadata := by
  unfold main
  rw [hu]
  exact if_pos hn

theorem main_of_shuffle {σ α : Type} (r : Rand σ) (inp : Input α) (metadata : List α)
    (hu : inp.unmarshalled = some metadata) (hn : metadata.length = 10000)
    (rng : σ) (lines : List Event) (hs : seededRNG r (HexToHash inp.seedHex) = .ok (rng, lines))
    (rng1 : σ) (out : List α) (log : List Event)
    (hsh : shuffleMetadata r rng metadata ([.initialCollection] ++ lines) = .ok (rng1, out, log)) :
    main r inp =
      if !inp.marshalOk then .fatal .fatalMarshal log out
      else if !inp.writeOk then .fatal .fatalWriteFile (log ++ [.shuffledCollection]) out
      else .done (log ++ [.shuffledCollection]) out := by
  unfold main
  rw [hu]
  simp only [hn, ne_eq, not_true_eq_false, if_false, hs, hsh]

theorem bytesToHash_short (b : List Byte) (hb : b.length ≤ 32) :
    (BytesToHash b).bytes = List.replicate (32 - b.length) 0 ++ b := by
  have hc : cropToHashLength b = b := if_neg (by omega)
  show List.take (32 - (cropToHashLength b).length) zeroHash.bytes ++
    copySlice (List.drop (32 - (cropToHashLength b).length) zeroHash.bytes) (cropToHashLength b) = _
  rw [hc]
  have hz : zeroHash.bytes = List.replicate 32 0 := rfl
  rw [hz, copySlice, List.take_replicate, List.drop_replicate, List.length_replicate,
    List.drop_replicate]
  have e1 : min (32 - b.length) 32 = 32 - b.length := by omega
  have e2 : 32 - (32 - b.length) = b.length := by omega
  rw [e1, e2, Nat.sub_self, List.replicate_zero, List.append_nil, List.take_length]

theorem bytesToHash_long (b : List Byte) (hb : 32 < b.length) :
    (BytesToHash b).bytes = b.drop (b.length - 32) := by
  have hc : cropToHashLength b = b.drop (b.length - 32) := if_pos hb
  have hl : (b.drop (b.length - 32)).length = 32 := by rw [List.length_drop]; omega
  show List.take (32 - (cropToHashLength b).length) zeroHash.bytes ++
    copySlice (List.drop (32 - (cropToHashLength b).length) zeroHash.bytes) (cropToHashLength b) = _
  have hz : List.drop 32 zeroHash.bytes = [] := rfl
  have ht : List.take 32 (b.drop (b.length - 32)) = b.drop (b.length - 32) :=
    List.take_of_length_le (by omega)
  rw [hc, hl, Nat.sub_self, List.take_zero, List.nil_append, List.drop_zero, copySlice, hl,
    zeroHash.size, hz, ht, List.append_nil]

theorem main_shuffles {σ α : Type} (r : Rand σ) (hr : r.InRange) (inp : Input α)
    (metadata : List α) (hu : inp.unmarshalled = some metadata) (hn : metadata.length = 10000)
    (hm : inp.marshalOk = true) (hw : inp.writeOk = true) (u : Nat)
    (hf : foldSeed (HexToHash inp.seedHex).bytes = .ok (u, 4)) :
    main r inp = .done ([.initialCollection, .seedHash (HexToHash inp.seedHex).bytes,
        .xorFolded u, .rngSeed (int64OfUint64 u)] ++
        swapEvents (shuffleDraws r (metadata.length - 1) (r.newSource (int64OfUint64 u))).1 ++
        [.shuffledCollection])
      (applySwaps (shuffleDraws r (metadata.length - 1) (r.newSource (int64OfUint64 u))).1
        metadata) ∧
    (shuffleDraws r (metadata.length - 1) (r.newSource (int64OfUint64 u))).1.length = 9999 ∧
    (applySwaps (shuffleDraws r (metadata.length - 1) (r.newSource (int64OfUint64 u))).1
      metadata).Perm metadata := by
  obtain ⟨rng1, out, sw, hrun, hsw, _, happ, hperm, hfst, _⟩ := shuffleMetadata_inRange r hr
    (r.newSource (int64OfUint64 u)) metadata
    ([.initialCollection] ++ [.seedHash (HexToHash inp.seedHex).bytes, .xorFolded u,
      .rngSeed (int64OfUint64 u)])
  subst hsw
  subst happ
  refine ⟨?_, ?_, hperm⟩
  · rw [main_of_shuffle r inp metadata hu hn _ _
      (seededRNG_of_foldSeed r (HexToHash inp.seedHex) u 4 hf) rng1 _ _ hrun, hm, hw]
    rfl
  · have h := congrArg List.length hfst
    rw [List.length_map, countdownFrom_length] at h
    omega

/-- C2: for every collection (of any length), every generator whose bounded
draws respect their documented range and every generator state (so every
seed), the shuffle statement of `main` returns, and the collection after it is
a permutation of the input with the same length. -/
theorem shuffle_output_is_permutation {σ α : Type} (r : Rand σ) (hr : r.InRange) (rng : σ)
    (metadata : List α) (log : List Event) :
    ∃ (rng1 : σ) (out : List α) (log1 : List Event),
      shuffleMetadata r rng metadata log = .ok (rng1, out, log1) ∧
      out.Perm metadata ∧ out.length = metadata.length := by
  obtain ⟨rng1, out, sw, hrun, _, _, _, hperm, _, _⟩ :=
    shuffleMetadata_inRange r hr rng metadata log
  exact ⟨rng1, out, _, hrun, hperm, hperm.length_eq⟩

/-- Witness for C2: the sample generator seeded with 7 on four records. -/
theorem shuffle_output_is_permutation_witness :
    lcg.InRange ∧ ∃ (rng1 : Nat) (out : List Nat) (log1 : List Event),
      shuffleMetadata lcg (lcg.newSource 7) [10, 20, 30, 40] [] = .ok (rng1, out, log1) ∧
      out.Perm [10, 20, 30, 40] ∧ out.length = [10, 20, 30, 40].length :=
  ⟨lcg_inRange,
    shuffle_output_is_permutation lcg lcg_inRange (lcg.newSource 7) [10, 20, 30, 40] []⟩

/-- C9: for every collection of length `N` and every generator whose bounded
draws respect their documented range, `Shuffle` returns without error.  Its swap
calls are exactly those of `shuffleDraws`: at `i = N-1, N-2, ..., 1` in that
order, with `j` the value the generator returns when asked for a draw below
`i + 1` (`int31n(i + 1)` for `i ≤ 1<<31-1-1`, `Int63n(i + 1)` above), the
generator advancing from draw to draw.  Each `j` satisfies `0 ≤ j ≤ i`, every
index lies in `[0, N)`, the resulting collection is the input with positions
`i` and `j` exchanged call after call, and there are exactly `N - 1` calls
(none when `N ≤ 1`). -/
theorem shuffle_makes_countdown_swaps {σ α : Type} (r : Rand σ) (hr : r.InRange) (rng : σ)
    (metadata : List α) (log : List Event) :
    shuffleMetadata r rng metadata log =
      .ok ((shuffleDraws r (metadata.length - 1) rng).2,
        applySwaps (shuffleDraws r (metadata.length - 1) rng).1 metadata,
        log ++ swapEvents (shuffleDraws r (metadata.length - 1) rng).1) ∧
    (∀ (g : σ) (i : Int), 0 ≤ i → i ≤ shuffleBound →
      shuffleDraw r g (i + 1) = r.int31n g (i + 1)) ∧
    (∀ (g : σ) (i : Int), shuffleBound < i → shuffleDraw r g (i + 1) = r.int63n g (i + 1)) ∧
    (shuffleDraws r (metadata.length - 1) rng).1.map Prod.fst =
      countdownFrom (metadata.length - 1) ∧
    (∀ p ∈ (shuffleDraws r (metadata.length - 1) rng).1,
      0 ≤ p.2 ∧ p.2 ≤ p.1 ∧ 0 ≤ p.1 ∧ p.1 < metadata.length ∧ p.2 < metadata.length) ∧
    (shuffleDraws r (metadata.length - 1) rng).1.length = metadata.length - 1 := by
  obtain ⟨rng1, out, sw, hrun, hsw, hgen, happ, _, hfst, hrange⟩ :=
    shuffleMetadata_inRange r hr rng metadata log
  subst hsw hgen happ
  refine ⟨hrun, shuffleDraw_of_le r, shuffleDraw_of_gt r, hfst, ?_, ?_⟩
  · intro p hp
    have h1 : p.1 ∈ countdownFrom (metadata.length - 1) := by
      rw [← hfst]
      exact List.mem_map_of_mem _ hp
    have h2 := mem_countdownFrom _ _ h1
    have h3 := hrange p hp
    omega
  · have h := congrArg List.length hfst
    rw [List.length_map, countdownFrom_length] at h
    exact h

/-- Witness for C9: the sample generator seeded with 8 on five records; the
draws are 3, 3, 0, 1 at `i = 4, 3, 2, 1` and the result is `30, 20, 10, 50, 40`. -/
theorem shuffle_makes_countdown_swaps_witness :
    lcg.InRange ∧
    (shuffleDraws lcg 4 (lcg.newSource 8)).1 = [(4, 3), (3, 3), (2, 0), (1, 1)] ∧
    applySwaps (shuffleDraws lcg 4 (lcg.newSource 8)).1 [10, 20, 30, 40, 50] =
      [30, 20, 10, 50, 40] ∧
    shuffleMetadata lcg (lcg.newSource 8) [10, 20, 30, 40, 50] [] =
      .ok ((shuffleDraws lcg ([10, 20, 30, 40, 50].length - 1) (lcg.newSource 8)).2,
        applySwaps (shuffleDraws lcg ([10, 20, 30, 40, 50].length - 1) (lcg.newSource 8)).1
          [10, 20, 30, 40, 50],
        [] ++ swapEvents
          (shuffleDraws lcg ([10, 20, 30, 40, 50].length - 1) (lcg.newSource 8)).1) :=
  ⟨lcg_inRange, by decide, by decide,
    (shuffle_makes_countdown_swaps lcg lcg_inRange (lcg.newSource 8) [10, 20, 30, 40, 50] []).1⟩

/-- C10: on a collection of `N` distinct records (the `N` positions, for
`xs = List.range N`), running the shuffle with a scripted draw sequence
`j_(N-1), ..., j_1`, `0 ≤ j_i ≤ i`, always yields a permutation of the
collection, and every permutation is produced by exactly one such sequence. -/
theorem draw_sequences_biject_permutations {α : Type} (xs : List α) (hnd : xs.Nodup) :
    (∀ d, ValidDraws xs.length d → ∃ out, shuffleWithDraws d xs = .ok out ∧ out.Perm xs) ∧
    (∀ out : List α, out.Perm xs →
      ∃! d, ValidDraws xs.length d ∧ shuffleWithDraws d xs = .ok out) := by
  constructor
  · intro d hv
    exact ⟨_, shuffleWithDraws_eq d xs hv, fisherYates_perm _ _ _⟩
  · intro out hperm
    cases hlen : xs.length with
    | zero =>
      have hx : xs = [] := List.length_eq_zero.mp hlen
      subst hx
      have ho : out = [] := List.perm_nil.mp hperm
      subst ho
      refine ⟨[], ⟨rfl, rfl⟩, ?_⟩
      rintro d ⟨hd, _⟩
      exact hd
    | succ k =>
      obtain ⟨d, ⟨hv, he⟩, hu⟩ := fisherYates_unique_draws k xs out hlen hnd hperm
      have hv1 : ValidDraws xs.length d := by
        rw [hlen]
        exact hv
      have hk : xs.length - 1 = k := by omega
      refine ⟨d, ⟨hv, ?_⟩, ?_⟩
      · rw [shuffleWithDraws_eq d xs hv1, hk, he]
      · rintro d2 ⟨hv2, he2⟩
        have hv3 : ValidDraws xs.length d2 := by
          rw [hlen]
          exact hv2
        rw [shuffleWithDraws_eq d2 xs hv3, hk] at he2
        exact hu d2 ⟨hv2, Except.ok.inj he2⟩

/-- Witness for C10 on the three positions `0, 1, 2`. -/
theorem draw_sequences_biject_permutations_witness :
    (List.range 3).Nodup ∧
    (∀ d, ValidDraws (List.range 3).length d →
      ∃ out, shuffleWithDraws d (List.range 3) = .ok out ∧ out.Perm (List.range 3)) ∧
    (∀ out : List Nat, out.Perm (List.range 3) →
      ∃! d, ValidDraws (List.range 3).length d ∧ shuffleWithDraws d (List.range 3) = .ok out) :=
  ⟨by decide, draw_sequences_biject_permutations (List.range 3) (by decide)⟩

/-- C4: for every loaded collection whose length is not 10,000, `main` exits
through the size-mismatch `log.Fatalf` having logged only the initial
provenance line: no seed line, no swap call, and `metadata` is as loaded. -/
theorem size_mismatch_stops_before_shuffle {σ α : Type} (r : Rand σ) (inp : Input α)
    (metadata : List α) (hu : inp.unmarshalled = some metadata)
    (hn : metadata.length ≠ 10000) :
    main r inp = .fatal (.fatalSizeMismatch metadata.length) [.initialCollection] metadata :=
  main_of_size_mismatch r inp metadata hu hn

/-- Witness for C4: three records and the seed `0x01`. -/
theorem size_mismatch_stops_before_shuffle_witness :
    [1, 2, 3].length ≠ 10000 ∧
    main lcg ⟨goString "0x01", some [1, 2, 3], true, true⟩ =
      .fatal (.fatalSizeMismatch [1, 2, 3].length) [.initialCollection] [1, 2, 3] :=
  ⟨by decide,
    size_mismatch_stops_before_shuffle lcg ⟨goString "0x01", some [1, 2, 3], true, true⟩
      [1, 2, 3] rfl (by decide)⟩

/-- C3: two runs whose seed strings decode to the same hash and whose loaded
collections are equal derive the same seed and log the same seed lines, build
the same fresh generator from that seed alone, end with the same ordering of
`metadata` (whatever the outcome of marshalling and writing), and have the same
whole outcome when those two outcomes agree as well. -/
theorem equal_hash_and_collection_give_equal_runs {σ α : Type} (r : Rand σ) (a b : Input α)
    (hh : HexToHash a.seedHex = HexToHash b.seedHex) (hc : a.unmarshalled = b.unmarshalled) :
    seededRNG r (HexToHash a.seedHex) = seededRNG r (HexToHash b.seedHex) ∧
    (main r a).records = (main r b).records ∧
    (a.marshalOk = b.marshalOk → a.writeOk = b.writeOk → main r a = main r b) ∧
    ∃ u : Nat, foldSeed (HexToHash a.seedHex).bytes = .ok (u, 4) ∧
      foldSeed (HexToHash b.seedHex).bytes = .ok (u, 4) ∧
      (seededRNG r (HexToHash a.seedHex)).map Prod.fst = .ok (r.newSource (int64OfUint64 u)) ∧
      (seededRNG r (HexToHash b.seedHex)).map Prod.fst = .ok (r.newSource (int64OfUint64 u)) := by
  refine ⟨by rw [hh], ?_, ?_, ?_⟩
  · unfold main
    rw [hc, hh]
    cases b.unmarshalled with
    | none => rfl
    | some m =>
      dsimp only
      split
      · rfl
      · cases seededRNG r (HexToHash b.seedHex) with
        | error e => rfl
        | ok p =>
          dsimp only
          cases shuffleMetadata r p.1 m ([Event.initialCollection] ++ p.2) with
          | error e => rfl
          | ok q =>
            cases a.marshalOk <;> cases b.marshalOk <;> cases a.writeOk <;> cases b.writeOk <;> rfl
  · intro hm hw
    unfold main
    rw [hc, hh, hm, hw]
  · exact seed_of_equal_hash r _ _ hh

/-- Witness for C3: the seeds `0x01` and `1` decode to the same hash; the two
runs load the same 10,000 records and differ in whether marshalling succeeds. -/
theorem equal_hash_and_collection_give_equal_runs_witness :
    HexToHash (goString "0x01") = HexToHash (goString "1") ∧
    (main lcg ⟨goString "0x01", some tenThousand, true, true⟩).records =
      (main lcg ⟨goString "1", some tenThousand, false, true⟩).records :=
  ⟨by decide, (equal_hash_and_collection_give_equal_runs lcg
    ⟨goString "0x01", some tenThousand, true, true⟩
    ⟨goString "1", some tenThousand, false, true⟩ (by decide) rfl).2.1⟩

/-- Counterexample to C5: the empty default of `seed_hash` (0 bytes), the seed
`0x01` (1 byte) and a 33-byte seed are all accepted.  The first two are padded
with zero bytes and give the seeds 0 and 1, the third is cropped to its last 32
bytes, and with the empty default `main` shuffles 10,000 records with the draws
of the generator seeded with 0. -/
theorem short_and_long_seed_hashes_are_accepted :
    (FromHex (goString "")).length = 0 ∧
    seededRNG lcg (HexToHash (goString "")) =
      .ok (lcg.newSource 0, [.seedHash (List.replicate 32 0), .xorFolded 0, .rngSeed 0]) ∧
    (FromHex (goString "0x01")).length = 1 ∧
    seededRNG lcg (HexToHash (goString "0x01")) =
      .ok (lcg.newSource 1, [.seedHash (List.replicate 31 0 ++ [1]), .xorFolded 1, .rngSeed 1]) ∧
    (FromHex longSeedHex).length = 33 ∧
    (HexToHash longSeedHex).bytes = List.replicate 32 255 ∧
    main lcg ⟨goString "", some tenThousand, true, true⟩ =
      .done ([.initialCollection, .seedHash (HexToHash (goString "")).bytes, .xorFolded 0,
          .rngSeed 0] ++
          swapEvents (shuffleDraws lcg (tenThousand.length - 1) (lcg.newSource 0)).1 ++
          [.shuffledCollection])
        (applySwaps (shuffleDraws lcg (tenThousand.length - 1) (lcg.newSource 0)).1
          tenThousand) := by
  refine ⟨by decide, rfl, by decide, rfl, by decide, by decide, ?_⟩
  have h := (main_shuffles lcg lcg_inRange ⟨goString "", some tenThousand, true, true⟩
    tenThousand rfl (List.length_range 10000) rfl rfl 0 rfl).1
  have h2 : int64OfUint64 0 = 0 := by decide
  rw [h2] at h
  exact h

/-- C5 (amended): every seed string is accepted, whatever the length of the
bytes it decodes to.  `HexToHash` pads a shorter input on the left with zero
bytes and keeps the last 32 bytes of a longer one (the empty default becomes
the zero hash); the fold `u` of the resulting hash then returns, `seededRNG`
returns the generator `newSource(int64(u))`, and on a 10,000-record collection
`main` logs that seed and shuffles with that generator: its 9,999 swap calls
are the draws of that generator, and it writes the input with those swaps
applied, a permutation of the input. -/
theorem seed_hash_is_padded_or_cropped {σ α : Type} (r : Rand σ) (hr : r.InRange)
    (inp : Input α) (metadata : List α) (hu : inp.unmarshalled = some metadata)
    (hn : metadata.length = 10000) (hm : inp.marshalOk = true) (hw : inp.writeOk = true) :
    ((FromHex inp.seedHex).length ≤ 32 → (HexToHash inp.seedHex).bytes =
      List.replicate (32 - (FromHex inp.seedHex).length) 0 ++ FromHex inp.seedHex) ∧
    (32 < (FromHex inp.seedHex).length → (HexToHash inp.seedHex).bytes =
      (FromHex inp.seedHex).drop ((FromHex inp.seedHex).length - 32)) ∧
    HexToHash [] = zeroHash ∧
    ∃ u : Nat, foldSeed (HexToHash inp.seedHex).bytes = .ok (u, 4) ∧
      seededRNG r (HexToHash inp.seedHex) = .ok (r.newSource (int64OfUint64 u),
        [.seedHash (HexToHash inp.seedHex).bytes, .xorFolded u,
          .rngSeed (int64OfUint64 u)]) ∧
      main r inp = .done ([.initialCollection, .seedHash (HexToHash inp.seedHex).bytes,
          .xorFolded u, .rngSeed (int64OfUint64 u)] ++
          swapEvents
            (shuffleDraws r (metadata.length - 1) (r.newSource (int64OfUint64 u))).1 ++
          [.shuffledCollection])
        (applySwaps (shuffleDraws r (metadata.length - 1) (r.newSource (int64OfUint64 u))).1
          metadata) ∧
      (shuffleDraws r (metadata.length - 1) (r.newSource (int64OfUint64 u))).1.length = 9999 ∧
      (applySwaps (shuffleDraws r (metadata.length - 1) (r.newSource (int64OfUint64 u))).1
        metadata).Perm metadata :=
  ⟨bytesToHash_short _, bytesToHash_long _, rfl, _, foldSeed_eq _,
    seededRNG_of_foldSeed r _ _ 4 (foldSeed_eq _),
    main_shuffles r hr inp metadata hu hn hm hw _ (foldSeed_eq _)⟩

/-- Witness for C5 (amended): the one-byte seed `0x01` with 10,000 records is
padded to the hash of 31 zero bytes and `0x01`, and the run shuffles with the
draws of the generator seeded from its fold. -/
theorem seed_hash_is_padded_or_cropped_witness :
    lcg.InRange ∧ tenThousand.length = 10000 ∧ (FromHex (goString "0x01")).length = 1 ∧
    (HexToHash (goString "0x01")).bytes =
      List.replicate (32 - (FromHex (goString "0x01")).length) 0 ++ FromHex (goString "0x01") ∧
    ∃ u : Nat, foldSeed (HexToHash (goString "0x01")).bytes = .ok (u, 4) ∧
      seededRNG lcg (HexToHash (goString "0x01")) = .ok (lcg.newSource (int64OfUint64 u),
        [.seedHash (HexToHash (goString "0x01")).bytes, .xorFolded u,
          .rngSeed (int64OfUint64 u)]) ∧
      main lcg ⟨goString "0x01", some tenThousand, true, true⟩ =
        .done ([.initialCollection, .seedHash (HexToHash (goString "0x01")).bytes,
          .xorFolded u, .rngSeed (int64OfUint64 u)] ++
          swapEvents
            (shuffleDraws lcg (tenThousand.length - 1) (lcg.newSource (int64OfUint64 u))).1 ++
          [.shuffledCollection])
        (applySwaps
          (shuffleDraws lcg (tenThousand.length - 1) (lcg.newSource (int64OfUint64 u))).1
          tenThousand) ∧
      (shuffleDraws lcg (tenThousand.length - 1)
        (lcg.newSource (int64OfUint64 u))).1.length = 9999 ∧
      (applySwaps
        (shuffleDraws lcg (tenThousand.length - 1) (lcg.newSource (int64OfUint64 u))).1
        tenThousand).Perm tenThousand :=
  ⟨lcg_inRange, List.length_range 10000, by decide,
    (seed_hash_is_padded_or_cropped lcg lcg_inRange
      ⟨goString "0x01", some tenThousand, true, true⟩ tenThousand rfl (List.length_range 10000)
      rfl rfl).1 (by decide),
    (seed_hash_is_padded_or_cropped lcg lcg_inRange
      ⟨goString "0x01", some tenThousand, true, true⟩ tenThousand rfl (List.length_range 10000)
      rfl rfl).2.2.2⟩

end Shuffler
